import Mathlib

/-!
Verification development for the text-analysis core of the
AI-Notes-Summarizer repository.

Shallow embedding of src/utils/search_utils.py (substring search with
line/page attribution, snippets and highlight markup), src/utils/summarizer.py
(extractive summarization) and the query-validation logic of the
search_results route in src/app.py.

Modeling conventions:
- Python strings are modeled as List Char; character classes are restricted
  to ASCII (the texts in all claims are ASCII).
- Python floats arising in the summarizer are exact nonnegative rationals
  (counts divided by counts, multiplied by small rational literals); they are
  modeled as unreduced numerator/denominator pairs (structure Frac) so that
  every score computation is executable by kernel reduction, with fracVal
  interpreting them in the rational numbers.  The float literal 0.2 is
  modeled as the exact rational 1/5.
- While loops are modeled by structural recursion on a fuel argument; the
  fuel passed by each wrapper is always sufficient, as the lemmas below show.
- Python sorted is a stable sort and is modeled by insertion sort with the
  corresponding total preorder, which agrees with any stable sort.
-/

namespace NotesCore

/-- ASCII whitespace as recognized by the regex class for whitespace and by
    the Python str.strip method: space, tab, LF, CR, VT, FF. -/
def isSpaceChar (c : Char) : Bool :=
  c = ' ' || c = '\t' || c = '\n' || c = '\r' || c = '\x0b' || c = '\x0c'

/-- Python str.strip: remove leading and trailing whitespace. -/
def pyStrip (s : List Char) : List Char :=
  ((s.dropWhile isSpaceChar).reverse.dropWhile isSpaceChar).reverse

/-! ## Search engine (src/utils/search_utils.py) -/

/-- One match record, mirroring the dict appended in search_in_text
    (search_utils.py lines 48-53). -/
structure Match where
  line_number : Nat
  page_number : Option Nat
  snippet : List Char
  position : Nat
deriving DecidableEq, Repr

/-- The result dict of search_in_text (search_utils.py lines 57-61). -/
structure SearchResult where
  «matches» : List Match
  count : Nat
  query : List Char
deriving DecidableEq, Repr

/-- Python str.find(sub, start): the least position p with start ≤ p at which
    sub occurs in t (p may equal the length of t when sub is empty); none when
    there is no such p (Python returns -1 there). -/
def findFrom (t sub : List Char) (start : Nat) : Option Nat :=
  ((List.range (t.length + 1)).filter
      (fun p => decide (start ≤ p) && sub.isPrefixOf (t.drop p))).head?

def markOpen : List Char := ['<', 'm', 'a', 'r', 'k', '>']

def markClose : List Char := ['<', '/', 'm', 'a', 'r', 'k', '>']

def dots : List Char := ['.', '.', '.']

def dash3 : List Char := ['-', '-', '-']

/-- Case-insensitive occurrence of the literal query at the head of s: the
    next q.length characters of s, lowercased, equal the lowercased query. -/
def matchesAt (q s : List Char) : Bool :=
  ((s.take q.length).map Char.toLower) == (q.map Char.toLower)

/-- Scanner for re.sub with the escaped query and IGNORECASE (highlight_text,
    search_utils.py lines 63-74): each leftmost case-insensitive occurrence of
    the literal query is wrapped in mark tags, keeping its original casing, and
    the scan resumes after it; an empty query inserts an empty pair of tags at
    every position, as re.sub does on an empty pattern.  The fuel argument
    bounds the recursion; length of s plus 1 is always sufficient. -/
def highlightAux (q : List Char) : Nat → List Char → List Char
  | 0, s => s
  | _ + 1, [] => if q.isEmpty then markOpen ++ markClose else []
  | fuel + 1, c :: rest =>
    if q.isEmpty then markOpen ++ markClose ++ c :: highlightAux q fuel rest
    else if matchesAt q (c :: rest) then
      markOpen ++ (c :: rest).take q.length ++ markClose ++
        highlightAux q fuel ((c :: rest).drop q.length)
    else c :: highlightAux q fuel rest

/-- highlight_text (search_utils.py lines 63-74). -/
def highlight_text (s q : List Char) : List Char :=
  highlightAux q (s.length + 1) s

/-- Numeric value of a digit run, as Python int() of the captured group. -/
def digitsVal (ds : List Char) : Nat :=
  ds.foldl (fun a c => a * 10 + (c.toNat - '0'.toNat)) 0

/-- Attempt to match the findall pattern of extract_page_number
    (search_utils.py line 84): three dashes, optional whitespace, the word
    Page or Slide (case-sensitively: the call passes no IGNORECASE flag), at
    least one whitespace character, a digit run (the captured group), optional
    whitespace, three dashes.  Returns the captured number and the count of
    consumed characters.  Maximal munch on each character class is exact here
    because every adjacent pair of pattern pieces matches disjoint character
    sets, so the backtracking regex engine accepts exactly these matches. -/
def tryMarker (s : List Char) : Option (Nat × Nat) :=
  if dash3.isPrefixOf s then
    let s1 := s.drop 3
    let a := (s1.takeWhile isSpaceChar).length
    let s2 := s1.drop a
    let kw := if ("Page".toList).isPrefixOf s2 then some 4
      else if ("Slide".toList).isPrefixOf s2 then some 5 else none
    match kw with
    | none => none
    | some k =>
      let s3 := s2.drop k
      let b := (s3.takeWhile isSpaceChar).length
      if b = 0 then none else
        let s4 := s3.drop b
        let ds := s4.takeWhile Char.isDigit
        if ds.isEmpty then none else
          let s5 := s4.drop ds.length
          let e := (s5.takeWhile isSpaceChar).length
          if dash3.isPrefixOf (s5.drop e) then
            some (digitsVal ds, 3 + a + k + b + ds.length + e + 3)
          else none
  else none

/-- re.findall of the marker pattern over s: scan left to right, collecting
    the captured page numbers of non-overlapping matches, resuming after each
    match.  Fuel bounds the scan; length of s plus 1 always suffices. -/
def markerScanAux : Nat → List Char → List Nat
  | 0, _ => []
  | _ + 1, [] => []
  | fuel + 1, c :: rest =>
    match tryMarker (c :: rest) with
    | some (n, k) => n :: markerScanAux fuel ((c :: rest).drop k)
    | none => markerScanAux fuel rest

def markerScan (s : List Char) : List Nat :=
  markerScanAux (s.length + 1) s

/-- extract_page_number (search_utils.py lines 76-89): run findall on the up
    to 500 characters before the position and return the last captured number,
    none when there is no match in that window. -/
def extract_page_number (t : List Char) (position : Nat) : Option Nat :=
  (markerScan ((t.take position).drop (position - 500))).getLast?

/-- The match record built for an occurrence at position pos: the loop body of
    search_in_text (search_utils.py lines 25-53).  Python slicing
    text[start:stop] is take stop followed by drop start; max(0, pos - ctx) is
    truncated subtraction on Nat. -/
def mkMatch (t q : List Char) (ctx pos : Nat) : Match :=
  let start := pos - ctx
  let stop := min t.length (pos + q.length + ctx)
  let snippet0 := (t.take stop).drop start
  let snippet1 := if 0 < start then dots ++ snippet0 else snippet0
  let snippet2 := if stop < t.length then snippet1 ++ dots else snippet1
  { line_number := (t.take pos).count '\n' + 1
    page_number := extract_page_number t pos
    snippet := highlight_text snippet2 q
    position := pos }

/-- The while loop of search_in_text (search_utils.py lines 20-55): find the
    next occurrence of the lowercased query in the lowercased text from the
    current position, append its match record, count it, and resume one
    character after the match start.  Returns the match list and the final
    match counter.  Fuel bounds the loop; length of t plus 1 suffices from
    position 0 because positions increase strictly. -/
def searchLoop (t q : List Char) (ctx : Nat) : Nat → Nat → List Match × Nat
  | 0, _ => ([], 0)
  | fuel + 1, position =>
    match findFrom (t.map Char.toLower) (q.map Char.toLower) position with
    | none => ([], 0)
    | some pos =>
      let rest := searchLoop t q ctx fuel (pos + 1)
      (mkMatch t q ctx pos :: rest.1, rest.2 + 1)

/-- search_in_text (search_utils.py lines 4-61). -/
def search_in_text (t q : List Char) (ctx : Nat := 150) : SearchResult :=
  let r := searchLoop t q ctx (t.length + 1) 0
  { «matches» := r.1, count := r.2, query := q }

/-- The AND branch of search_with_operators (search_utils.py lines 157-163),
    applied to the already split and stripped term list: one SearchResult per
    term, not merged. -/
def search_and (t : List Char) (terms : List (List Char)) : List SearchResult :=
  terms.map (fun term => search_in_text t term)

/-- The OR branch of search_with_operators (search_utils.py lines 165-175),
    applied to the already split and stripped term list: all match lists are
    concatenated in per-term order by the extend calls, the count is the
    length of the merged list, and the query field keeps the raw query. -/
def search_or (t rawQuery : List Char) (terms : List (List Char)) : SearchResult :=
  let combined := terms.foldl (fun acc term => acc ++ (search_in_text t term).matches) []
  { «matches» := combined, count := combined.length, query := rawQuery }

/-- The error taxonomy of the route layer relevant to the core: an empty or
    missing query is a validation failure surfaced to the caller. -/
inductive AppError where
  | validationError
deriving DecidableEq

/-- The query handling of the search_results route (src/app.py lines 76-93):
    the form value is stripped; an empty result is rejected with a
    caller-visible validation failure before the search runs; otherwise the
    search runs with the default context size. -/
def search_results (t rawQuery : List Char) : Except AppError SearchResult :=
  let query := pyStrip rawQuery
  if query.isEmpty then Except.error AppError.validationError
  else Except.ok (search_in_text t query)

/-! ## Summarizer (src/utils/summarizer.py) -/

/-- Exact nonnegative rational scores: see the header comment. -/
structure Frac where
  num : Nat
  den : Nat
deriving DecidableEq, Repr

/-- Interpretation of a score in the rational numbers. -/
def fracVal (f : Frac) : ℚ := (f.num : ℚ) / (f.den : ℚ)

def fracAdd (f g : Frac) : Frac := ⟨f.num * g.den + g.num * f.den, f.den * g.den⟩

def fracMul (f g : Frac) : Frac := ⟨f.num * g.num, f.den * g.den⟩

/-- Comparison by cross multiplication; agrees with fracVal comparison for the
    positive denominators produced in this development. -/
def fracLe (f g : Frac) : Prop := f.num * g.den ≤ g.num * f.den

def fracLt (f g : Frac) : Prop := f.num * g.den < g.num * f.den

instance (f g : Frac) : Decidable (fracLe f g) :=
  inferInstanceAs (Decidable (f.num * g.den ≤ g.num * f.den))

instance (f g : Frac) : Decidable (fracLt f g) :=
  inferInstanceAs (Decidable (f.num * g.den < g.num * f.den))

/-- get_stop_words (summarizer.py lines 229-244). -/
def stop_words : List (List Char) :=
  ["the", "a", "an", "and", "or", "but", "in", "on", "at", "to", "for",
   "of", "with", "by", "from", "as", "is", "was", "are", "were", "be",
   "been", "being", "have", "has", "had", "do", "does", "did", "will",
   "would", "could", "should", "may", "might", "can", "this", "that",
   "these", "those", "i", "you", "he", "she", "it", "we", "they", "them",
   "their", "what", "which", "who", "when", "where", "why", "how", "all",
   "each", "every", "both", "few", "more", "most", "other", "some", "such",
   "no", "nor", "not", "only", "own", "same", "so", "than", "too", "very",
   "just", "also", "into", "through", "during", "before", "after", "above",
   "below", "between", "under", "again", "further", "then", "once"].map String.toList

/-- Regex word characters (ASCII). -/
def isWordChar (c : Char) : Bool := c.isAlphanum || c = '_'

/-- Maximal runs of word characters in a character list; the accumulator holds
    the current run reversed. -/
def wordRunsAux : List Char → List Char → List (List Char)
  | [], acc => if acc.isEmpty then [] else [acc.reverse]
  | c :: rest, acc =>
    if isWordChar c then wordRunsAux rest (c :: acc)
    else if acc.isEmpty then wordRunsAux rest []
    else acc.reverse :: wordRunsAux rest []

/-- The re.findall token extraction of three or more ASCII letters between
    word boundaries, applied to the lowercased text (summarizer.py lines 68,
    87 and 125): on any text this matches exactly those maximal
    word-character runs that consist solely of letters and have length at
    least 3, since a word boundary exists exactly at the edges of maximal
    word-character runs. -/
def findWords (t : List Char) : List (List Char) :=
  (wordRunsAux (t.map Char.toLower) []).filter
    (fun r => r.all Char.isAlpha && decide (3 ≤ r.length))

/-- One counting step of collections.Counter: increment the count of w,
    inserting it at the end on first occurrence (dict insertion order). -/
def bumpCount (d : List (List Char × Nat)) (w : List Char) : List (List Char × Nat) :=
  if d.any (fun p => p.1 == w) then
    d.map (fun p => if p.1 == w then (p.1, p.2 + 1) else p)
  else d ++ [(w, 1)]

/-- collections.Counter of a word list, as an insertion-ordered
    association list. -/
def counterOf (ws : List (List Char)) : List (List Char × Nat) :=
  ws.foldl bumpCount []

/-- The tokens that calculate_word_frequency counts: extracted words with the
    stop words removed (summarizer.py line 71). -/
def qualifyingWords (t : List Char) : List (List Char) :=
  (findWords t).filter (fun w => !(stop_words.contains w))

/-- max(word_count.values()) if word_count else 1 (summarizer.py line 74). -/
def maxCount (d : List (List Char × Nat)) : Nat :=
  if d.isEmpty then 1 else (d.map (fun p => p.2)).foldl Nat.max 0

/-- calculate_word_frequency (summarizer.py lines 60-77): count the
    qualifying tokens and divide every count by the maximum observed count
    (the divisor defaulting to 1 on an empty counter). -/
def calculate_word_frequency (t : List Char) : List (List Char × Frac) :=
  let wc := counterOf (qualifyingWords t)
  wc.map (fun p => (p.1, Frac.mk p.2 (maxCount wc)))

/-- The re.split at whitespace runs immediately preceded by a sentence
    terminal (summarizer.py line 49): scan left to right; acc holds the
    current fragment reversed, so the lookbehind at a whitespace character
    inspects the head of acc.  Fuel bounds the scan; length of the text plus 1
    always suffices. -/
def sentSplitAux : Nat → List Char → List Char → List (List Char)
  | 0, acc, rest => [acc.reverse ++ rest]
  | _ + 1, acc, [] => [acc.reverse]
  | fuel + 1, acc, c :: rest =>
    if isSpaceChar c && (acc.head?.elim false (fun p => p = '.' || p = '!' || p = '?')) then
      acc.reverse :: sentSplitAux fuel [] ((c :: rest).dropWhile isSpaceChar)
    else sentSplitAux fuel (c :: acc) rest

/-- split_into_sentences (summarizer.py lines 44-58): split at sentence
    boundaries, strip each fragment, keep those longer than 15 characters that
    do not start with the page-marker dashes. -/
def split_into_sentences (t : List Char) : List (List Char) :=
  ((sentSplitAux (t.length + 1) [] t).map pyStrip).filter
    (fun s => decide (15 < s.length) && !(dash3.isPrefixOf s))

/-- The marker word list of score_sentences (summarizer.py line 99). -/
def importantMarkers : List (List Char) :=
  ["important", "key", "definition", "theorem", "formula", "conclusion",
   "summary"].map String.toList

/-- The score of the sentence at index i out of n sentences: the loop body of
    score_sentences (summarizer.py lines 85-113).  The base score sums the
    frequency-table values of the tokens of the sentence; the multiplicative
    adjustments follow in source order.  The position test compares i against
    n times the float literal 0.2, modeled as the exact rational 1/5. -/
def scoreSentence (n : Nat) (word_freq : List (List Char × Frac)) (i : Nat)
    (sent : List Char) : Frac :=
  let ws := findWords sent
  let base := ws.foldl
    (fun sc w => match word_freq.lookup w with
      | some f => fracAdd sc f
      | none => sc) (Frac.mk 0 1)
  let lowered := sent.map Char.toLower
  let s1 := if fracLt (Frac.mk i 1) (fracMul (Frac.mk n 1) (Frac.mk 1 5)) then
      fracMul base (Frac.mk 13 10) else base
  let s2 := if importantMarkers.any (fun m => decide (m <:+: lowered)) then
      fracMul s1 (Frac.mk 14 10) else s1
  let s3 := if sent.any Char.isDigit then fracMul s2 (Frac.mk 12 10) else s2
  let s4 := if ws.length < 5 then fracMul s3 (Frac.mk 5 10) else s3
  if 40 < ws.length then fracMul s4 (Frac.mk 8 10) else s4

/-- One Python dict assignment d[k] = v on an insertion-ordered association
    list: overwrite the value at an existing key in place, append a fresh key
    at the end. -/
def dictUpsert (d : List (List Char × Frac)) (k : List Char) (v : Frac) :
    List (List Char × Frac) :=
  if d.any (fun p => p.1 == k) then d.map (fun p => if p.1 == k then (p.1, v) else p)
  else d ++ [(k, v)]

/-- score_sentences (summarizer.py lines 79-116): score each enumerated
    sentence and assign into a dict KEYED BY THE SENTENCE TEXT, so a repeated
    sentence text overwrites the score of its earlier occurrence. -/
def score_sentences (sentences : List (List Char))
    (word_freq : List (List Char × Frac)) : List (List Char × Frac) :=
  sentences.enum.foldl
    (fun d p => dictUpsert d p.2 (scoreSentence sentences.length word_freq p.1 p.2)) []

/-- The summary dict returned by generate_summary (summarizer.py
    lines 13-18 and 38-42). -/
structure Summary where
  text : List Char
  formatted : List Char
  bullet_points : List (List Char)
deriving DecidableEq, Repr

/-- format_summary_output (summarizer.py lines 196-212). -/
def format_summary_output (t : List Char) : List Char :=
  let sentences := split_into_sentences t
  ("📚 STUDY NOTES SUMMARY\n").toList ++
    (List.replicate 50 '=' ++ "\n\n".toList) ++
    ("KEY POINTS:\n").toList ++
    (sentences.enum.map
      (fun p => (Nat.repr (p.1 + 1)).toList ++ ". ".toList ++ p.2 ++ "\n\n".toList)).flatten

/-- generate_summary (summarizer.py lines 5-42).  The min_sentence_length
    parameter of the source is never read and is omitted.  sorted with a key
    and reverse=True is a stable descending sort, modeled by insertion sort
    with the matching preorder; the reorder step sorts by first index of the
    sentence text, as list.index does. -/
def generate_summary (t : List Char) (num_sentences : Nat := 15) : Summary :=
  let sentences := split_into_sentences t
  if sentences.length ≤ num_sentences then
    { text := t, formatted := format_summary_output t, bullet_points := sentences }
  else
    let word_freq := calculate_word_frequency t
    let sentence_scores := score_sentences sentences word_freq
    let top_sentences :=
      (List.insertionSort (fun a b : List Char × Frac => fracLe b.2 a.2)
        sentence_scores).take num_sentences
    let summary_sentences :=
      List.insertionSort (fun a b : List Char × Frac =>
        sentences.indexOf a.1 ≤ sentences.indexOf b.1) top_sentences
    let summary_text := List.intercalate [' '] (summary_sentences.map (fun p => p.1))
    { text := summary_text,
      formatted := format_summary_output summary_text,
      bullet_points := summary_sentences.map (fun p => p.1) }

/-- Left-to-right deletion of every mark tag, open or closing, from a
    character list: at each position an occurrence of a tag is skipped whole,
    otherwise one character is kept.  Fuel bounds the scan; the length of the
    input always suffices. -/
def stripTagsAux : Nat → List Char → List Char
  | 0, s => s
  | _ + 1, [] => []
  | fuel + 1, c :: rest =>
    if markOpen.isPrefixOf (c :: rest) then stripTagsAux fuel ((c :: rest).drop 6)
    else if markClose.isPrefixOf (c :: rest) then stripTagsAux fuel ((c :: rest).drop 7)
    else c :: stripTagsAux fuel rest

def stripTags (s : List Char) : List Char :=
  stripTagsAux s.length s

/-- The snippet construction as the specification describes it, with the
    ellipsis conditions stated directly on the match position: the characters
    of t in the window from p - c to p + (length of q) + c clamped to the text
    bounds, an ellipsis prefix exactly when text precedes the window (c < p)
    and an ellipsis suffix exactly when text follows it, and every
    case-insensitive occurrence of the literal query in the result wrapped in
    mark tags. -/
def snippetSpec (t q : List Char) (c p : Nat) : List Char :=
  let window := (t.take (p + q.length + c)).drop (p - c)
  let left := if c < p then dots ++ window else window
  let right := if p + q.length + c < t.length then left ++ dots else left
  highlight_text right q

/-! ## General lemmas about the embedding -/

/-- The Bool prefix test agrees with the prefix order. -/
theorem isPrefixOf_true {l₁ l₂ : List Char} : l₁.isPrefixOf l₂ = true ↔ l₁ <+: l₂ :=
  List.isPrefixOf_iff_prefix

theorem take_min {α : Type} (l : List α) (n : Nat) : l.take (min l.length n) = l.take n := by
  rcases Nat.le_total l.length n with h | h
  · rw [Nat.min_eq_left h, List.take_of_length_le h, List.take_length]
  · rw [Nat.min_eq_right h]

/-- The loop counter of search_in_text equals the number of collected
    matches. -/
theorem searchLoop_count (t q : List Char) (ctx : Nat) :
    ∀ fuel pos, (searchLoop t q ctx fuel pos).2 = (searchLoop t q ctx fuel pos).1.length := by
  intro fuel
  induction fuel with
  | zero => intro pos; rfl
  | succ f ih =>
    intro pos
    simp only [searchLoop]
    cases findFrom (t.map Char.toLower) (q.map Char.toLower) pos with
    | none => rfl
    | some p => simpa using ih (p + 1)

theorem search_in_text_count (t q : List Char) (ctx : Nat) :
    (search_in_text t q ctx).count = (search_in_text t q ctx).«matches».length :=
  searchLoop_count t q ctx (t.length + 1) 0

/-- Every collected match is the match record of some position. -/
theorem searchLoop_mem (t q : List Char) (ctx : Nat) :
    ∀ fuel pos m, m ∈ (searchLoop t q ctx fuel pos).1 → ∃ p, m = mkMatch t q ctx p := by
  intro fuel
  induction fuel with
  | zero => intro pos m hm; simp [searchLoop] at hm
  | succ f ih =>
    intro pos m hm
    simp only [searchLoop] at hm
    cases hf : findFrom (t.map Char.toLower) (q.map Char.toLower) pos with
    | none => rw [hf] at hm; simp at hm
    | some p =>
      rw [hf] at hm
      rcases List.mem_cons.mp hm with h | h
      · exact ⟨p, h⟩
      · exact ih (p + 1) m h

theorem foldl_append_eq_flatten {α β : Type} (f : α → List β) (l : List α) :
    ∀ acc : List β, l.foldl (fun a x => a ++ f x) acc = acc ++ (l.map f).flatten := by
  induction l with
  | nil => intro acc; simp
  | cons x xs ih => intro acc; simp [ih, List.append_assoc]

/-! ## C1: empty queries are rejected before the search runs -/

/-- C1.  For every non-empty text, submitting the empty string as the query
    makes the search operation fail with the caller-visible validation error:
    no search result object (in particular no zero-match result) is
    returned. -/
theorem empty_query_rejected (t : List Char) (ht : t ≠ []) :
    search_results t [] = Except.error AppError.validationError := rfl

theorem empty_query_rejected_witness :
    "notes".toList ≠ [] ∧
      search_results "notes".toList [] = Except.error AppError.validationError :=
  ⟨by decide, empty_query_rejected ("notes".toList) (by decide)⟩

/-! ## C5: short circuit of generate_summary -/

/-- C5.  When the sentence split of the text has at most num_sentences
    sentences, generate_summary returns the whole original text verbatim as
    the text field of the summary, without scoring or selecting. -/
theorem summary_short_circuit (t : List Char) (n : Nat)
    (h : (split_into_sentences t).length ≤ n) :
    (generate_summary t n).text = t := by
  simp only [generate_summary]
  rw [if_pos h]

theorem summary_short_circuit_witness :
    (split_into_sentences "too short. tiny.".toList).length ≤ 15 ∧
      (generate_summary "too short. tiny.".toList 15).text = "too short. tiny.".toList :=
  ⟨by decide, summary_short_circuit ("too short. tiny.".toList) 15 (by decide)⟩

/-! ## C7: the OR combination concatenates per-term matches -/

/-- C7.  For every text and sequence of OR-combined terms, the OR branch of
    search_with_operators returns a single result whose match sequence is the
    concatenation of the per-term match sequences in per-term scan order
    (no deduplication, no re-sorting), and whose count is the sum of the
    per-term counts. -/
theorem search_or_concatenates (t rawQuery : List Char) (terms : List (List Char)) :
    (search_or t rawQuery terms).«matches»
        = (terms.map (fun term => (search_in_text t term).«matches»)).flatten
      ∧ (search_or t rawQuery terms).count
        = (terms.map (fun term => (search_in_text t term).count)).sum := by
  constructor
  · simpa using foldl_append_eq_flatten (fun term => (search_in_text t term).«matches») terms []
  · show (terms.foldl (fun acc term => acc ++ (search_in_text t term).«matches») []).length = _
    rw [foldl_append_eq_flatten (fun term => (search_in_text t term).«matches») terms []]
    simp only [List.nil_append, List.length_flatten, List.map_map, Function.comp_def]
    exact congrArg List.sum
      (List.map_congr_left (fun term _ => (search_in_text_count t term 150).symm))

/-! ## C9: word-frequency normalization -/

theorem bumpCount_ne_nil (d : List (List Char × Nat)) (w : List Char) :
    bumpCount d w ≠ [] := by
  unfold bumpCount
  by_cases h : d.any (fun p => p.1 == w)
  · rw [if_pos h]
    intro hc
    rw [List.map_eq_nil_iff] at hc
    subst hc
    simp at h
  · rw [if_neg h]
    simp

theorem foldl_bumpCount_ne_nil (ws : List (List Char)) :
    ∀ d, d ≠ [] → ws.foldl bumpCount d ≠ [] := by
  induction ws with
  | nil => intro d hd; exact hd
  | cons w ws ih => intro d _; exact ih (bumpCount d w) (bumpCount_ne_nil d w)

theorem counterOf_ne_nil (ws : List (List Char)) (h : ws ≠ []) : counterOf ws ≠ [] := by
  cases ws with
  | nil => exact absurd rfl h
  | cons w ws => exact foldl_bumpCount_ne_nil ws (bumpCount [] w) (bumpCount_ne_nil [] w)

theorem bumpCount_pos (d : List (List Char × Nat)) (w : List Char)
    (hd : ∀ p ∈ d, 1 ≤ p.2) : ∀ p ∈ bumpCount d w, 1 ≤ p.2 := by
  unfold bumpCount
  by_cases h : d.any (fun p => p.1 == w)
  · rw [if_pos h]
    intro p hp
    rcases List.mem_map.mp hp with ⟨x, hx, hxp⟩
    by_cases hk : x.1 == w
    · rw [if_pos hk] at hxp
      have hv : p.2 = x.2 + 1 := by rw [← hxp]
      omega
    · rw [if_neg hk] at hxp
      exact hxp ▸ hd x hx
  · rw [if_neg h]
    intro p hp
    rcases List.mem_append.mp hp with hp | hp
    · exact hd p hp
    · simp at hp
      rw [hp]

theorem counterOf_pos (ws : List (List Char)) : ∀ p ∈ counterOf ws, 1 ≤ p.2 := by
  have key : ∀ (l : List (List Char)) (d : List (List Char × Nat)),
      (∀ p ∈ d, 1 ≤ p.2) → ∀ p ∈ l.foldl bumpCount d, 1 ≤ p.2 := by
    intro l
    induction l with
    | nil => intro d hd; exact hd
    | cons w l ih => intro d hd; exact ih (bumpCount d w) (bumpCount_pos d w hd)
  exact key ws [] (by intro p hp; simp at hp)

theorem foldl_max_base (l : List Nat) : ∀ a, a ≤ l.foldl Nat.max a := by
  induction l with
  | nil => intro a; exact Nat.le_refl a
  | cons y ys ih =>
    intro a
    rw [List.foldl_cons]
    exact Nat.le_trans (Nat.le_max_left a y) (ih (Nat.max a y))

theorem foldl_max_mem (l : List Nat) : ∀ a, l.foldl Nat.max a = a ∨ l.foldl Nat.max a ∈ l := by
  induction l with
  | nil => intro a; left; rfl
  | cons x xs ih =>
    intro a
    rcases ih (Nat.max a x) with h | h
    · by_cases hax : a ≤ x
      · right
        have hm : Nat.max a x = x := Nat.max_eq_right hax
        rw [List.foldl_cons, h, hm]
        exact List.mem_cons_self x xs
      · left
        have hm : Nat.max a x = a := Nat.max_eq_left (Nat.le_of_not_le hax)
        rw [List.foldl_cons, h, hm]
    · right
      rw [List.foldl_cons]
      exact List.mem_cons_of_mem x h

theorem le_foldl_max (l : List Nat) : ∀ a x, x ∈ l → x ≤ l.foldl Nat.max a := by
  induction l with
  | nil => intro a x hx; simp at hx
  | cons y ys ih =>
    intro a x hx
    rw [List.foldl_cons]
    rcases List.mem_cons.mp hx with h | h
    · subst h
      exact Nat.le_trans (Nat.le_max_right a x) (foldl_max_base ys (Nat.max a x))
    · exact ih (Nat.max a y) x h

/-- The maximum count is attained by some entry of a nonempty counter whose
    counts are all at least 1. -/
theorem maxCount_attained (d : List (List Char × Nat)) (hd : d ≠ [])
    (hpos : ∀ p ∈ d, 1 ≤ p.2) : ∃ p ∈ d, p.2 = maxCount d := by
  unfold maxCount
  rcases d with _ | ⟨p₀, d'⟩
  · exact absurd rfl hd
  · rw [if_neg (by simp)]
    have h₀ : p₀.2 ≤ ((p₀ :: d').map (fun p => p.2)).foldl Nat.max 0 :=
      le_foldl_max _ 0 p₀.2 (by simp)
    have hpos₀ : 1 ≤ p₀.2 := hpos p₀ (List.mem_cons_self p₀ d')
    rcases foldl_max_mem ((p₀ :: d').map (fun p => p.2)) 0 with h | h
    · omega
    · rcases List.mem_map.mp h with ⟨x, hx, hxe⟩
      exact ⟨x, hx, hxe⟩

theorem one_le_maxCount (d : List (List Char × Nat)) (hpos : ∀ p ∈ d, 1 ≤ p.2) :
    1 ≤ maxCount d := by
  unfold maxCount
  rcases d with _ | ⟨p₀, d'⟩
  · simp
  · rw [if_neg (by simp)]
    have h₀ : p₀.2 ≤ ((p₀ :: d').map (fun p => p.2)).foldl Nat.max 0 :=
      le_foldl_max _ 0 p₀.2 (by simp)
    have hpos₀ : 1 ≤ p₀.2 := hpos p₀ (List.mem_cons_self p₀ d')
    omega

/-- C9.  The word-frequency table of a text: with no qualifying tokens the
    table is empty; with at least one qualifying token some word has
    normalized frequency exactly 1; every table entry is a raw count divided
    by the maximum observed count; and the divisor is always at least 1 (it
    defaults to 1 on an empty counter), so the normalizing division is
    well defined. -/
theorem word_frequency_normalized (t : List Char) :
    (qualifyingWords t = [] → calculate_word_frequency t = [])
      ∧ (qualifyingWords t ≠ [] →
          ∃ w f, (w, f) ∈ calculate_word_frequency t ∧ fracVal f = 1)
      ∧ (∀ p ∈ calculate_word_frequency t,
          ∃ c : Nat, (p.1, c) ∈ counterOf (qualifyingWords t)
            ∧ p.2 = Frac.mk c (maxCount (counterOf (qualifyingWords t))))
      ∧ 1 ≤ maxCount (counterOf (qualifyingWords t)) := by
  refine ⟨?_, ?_, ?_, ?_⟩
  · intro h
    unfold calculate_word_frequency
    rw [h]
    rfl
  · intro h
    have hne : counterOf (qualifyingWords t) ≠ [] := counterOf_ne_nil _ h
    have hpos := counterOf_pos (qualifyingWords t)
    rcases maxCount_attained _ hne hpos with ⟨p, hp, hpe⟩
    refine ⟨p.1, Frac.mk p.2 (maxCount (counterOf (qualifyingWords t))), ?_, ?_⟩
    · unfold calculate_word_frequency
      exact List.mem_map.mpr ⟨p, hp, rfl⟩
    · have hM : 1 ≤ maxCount (counterOf (qualifyingWords t)) :=
        one_le_maxCount _ hpos
      unfold fracVal
      rw [hpe]
      show ((maxCount (counterOf (qualifyingWords t)) : ℚ))
          / ((maxCount (counterOf (qualifyingWords t)) : ℚ)) = 1
      exact div_self (Nat.cast_ne_zero.mpr (by omega))
  · intro p hp
    unfold calculate_word_frequency at hp
    rcases List.mem_map.mp hp with ⟨x, hx, hxe⟩
    refine ⟨x.2, ?_, ?_⟩
    · rw [show p.1 = x.1 from by rw [← hxe]]
      exact hx
    · rw [← hxe]
  · exact one_le_maxCount _ (counterOf_pos (qualifyingWords t))

theorem word_frequency_normalized_witness :
    qualifyingWords "apple apple banana".toList ≠ [] ∧
      ∃ w f, (w, f) ∈ calculate_word_frequency "apple apple banana".toList ∧ fracVal f = 1 :=
  ⟨by decide, (word_frequency_normalized ("apple apple banana".toList)).2.1 (by decide)⟩

/-! ## C8: line numbers; C3: page numbers; C6: snippets -/

/-- C8.  Every match of a non-empty query carries the line number equal to
    the number of newline characters strictly before its position, plus 1. -/
theorem match_line_number (t q : List Char) (c : Nat) (hq : q ≠ []) :
    ∀ m ∈ (search_in_text t q c).«matches»,
      m.line_number = (t.take m.position).count '\n' + 1 := by
  intro m hm
  obtain ⟨p, rfl⟩ := searchLoop_mem t q c (t.length + 1) 0 m hm
  rfl

theorem match_line_number_witness :
    "query".toList ≠ [] ∧
      (⟨3, none, "...<mark>query</mark>...".toList, 4⟩ : Match)
          ∈ (search_in_text "a\nb\nquery\n".toList "query".toList 0).«matches» ∧
      (⟨3, none, "...<mark>query</mark>...".toList, 4⟩ : Match).line_number
        = (("a\nb\nquery\n".toList).take
            (⟨3, none, "...<mark>query</mark>...".toList, 4⟩ : Match).position).count '\n' + 1 :=
  ⟨by decide, by decide,
    match_line_number ("a\nb\nquery\n".toList) ("query".toList) 0 (by decide) _ (by decide)⟩

/-- C3, amended.  Every match of a non-empty query carries the page number
    obtained by running the marker findall on the up to 500 characters before
    the match position and taking the last (nearest preceding) captured
    number, none when no marker occurs in that window; per the source regex
    the words Page and Slide are matched case-sensitively. -/
theorem match_page_number (t q : List Char) (c : Nat) (hq : q ≠ []) :
    ∀ m ∈ (search_in_text t q c).«matches»,
      m.page_number
        = (markerScan ((t.take m.position).drop (m.position - 500))).getLast? := by
  intro m hm
  obtain ⟨p, rfl⟩ := searchLoop_mem t q c (t.length + 1) 0 m hm
  simp only [mkMatch, extract_page_number]

/-- C3, counterexample to the claimed case-insensitivity: a lowercase marker
    (--- page 2 ---) is not recognized, so the match on foo reports no page
    number, while the capitalized marker is recognized. -/
theorem page_marker_case_cx :
    extract_page_number ("--- page 2 ---\nfoo bar".toList) 15 = none
      ∧ extract_page_number ("--- Page 2 ---\nfoo bar".toList) 15 = some 2
      ∧ ((search_in_text "--- page 2 ---\nfoo bar".toList "foo".toList 150).«matches»).map
          (fun m => m.page_number) = [none] :=
  ⟨by decide, by decide, by decide⟩

theorem match_page_number_witness :
    "foo".toList ≠ [] ∧
      (⟨2, some 2, "--- Page 2 ---\n<mark>foo</mark> bar".toList, 15⟩ : Match)
          ∈ (search_in_text "--- Page 2 ---\nfoo bar".toList "foo".toList 150).«matches» ∧
      (⟨2, some 2, "--- Page 2 ---\n<mark>foo</mark> bar".toList, 15⟩ : Match).page_number
        = (markerScan ((("--- Page 2 ---\nfoo bar".toList).take 15).drop (15 - 500))).getLast? :=
  ⟨by decide, by decide,
    match_page_number ("--- Page 2 ---\nfoo bar".toList) ("foo".toList) 150 (by decide) _
      (by decide)⟩

theorem mkMatch_snippet (t q : List Char) (c p : Nat) :
    (mkMatch t q c p).snippet = snippetSpec t q c p := by
  have h1 : t.take (min t.length (p + q.length + c)) = t.take (p + q.length + c) :=
    take_min t _
  have h2 : (0 < p - c) ↔ (c < p) := Nat.sub_pos_iff_lt
  have h3 : (min t.length (p + q.length + c) < t.length) ↔ (p + q.length + c < t.length) := by
    omega
  simp only [mkMatch, snippetSpec, h1, h2, h3]

/-- C6, amended.  Every snippet is the clamped context window around the
    match with the query highlighted, with an ellipsis prefix exactly when
    text precedes the window (equivalently, the left end was NOT clamped) and
    an ellipsis suffix exactly when text follows the window (the right end was
    NOT clamped). -/
theorem match_snippet_spec (t q : List Char) (c : Nat) :
    ∀ m ∈ (search_in_text t q c).«matches», m.snippet = snippetSpec t q c m.position := by
  intro m hm
  obtain ⟨p, rfl⟩ := searchLoop_mem t q c (t.length + 1) 0 m hm
  exact mkMatch_snippet t q c p

/-- C6, counterexample to the claimed ellipsis condition: for the match of ab
    in the text ab with context 3, the window from -3 to 5 is clamped to the
    text bounds on both sides, yet the snippet carries no ellipsis on either
    side. -/
theorem snippet_ellipsis_cx :
    ((search_in_text "ab".toList "ab".toList 3).«matches»).map (fun m => m.snippet)
        = ["<mark>ab</mark>".toList]
      ∧ ((search_in_text "ab".toList "ab".toList 3).«matches»).map (fun m => m.position) = [0]
      ∧ ((0 : Int) - 3 < 0 ∧ ("ab".toList).length < 0 + ("ab".toList).length + 3)
      ∧ ¬ dots <+: "<mark>ab</mark>".toList
      ∧ ¬ dots <:+ "<mark>ab</mark>".toList :=
  ⟨by decide, by decide, ⟨by decide, by decide⟩, by decide, by decide⟩

theorem match_snippet_spec_witness :
    (⟨1, none, "...<mark>a</mark>...".toList, 1⟩ : Match)
        ∈ (search_in_text "xay".toList "a".toList 0).«matches» ∧
      (⟨1, none, "...<mark>a</mark>...".toList, 1⟩ : Match).snippet
        = snippetSpec ("xay".toList) ("a".toList) 0
            (⟨1, none, "...<mark>a</mark>...".toList, 1⟩ : Match).position :=
  ⟨by decide, match_snippet_spec ("xay".toList) ("a".toList) 0 _ (by decide)⟩

/-! ## C4: the scan reports every occurrence, left to right -/

theorem mkMatch_position (t q : List Char) (c p : Nat) : (mkMatch t q c p).position = p := rfl

theorem findFrom_none (tl ql : List Char) (pos : Nat) (h : findFrom tl ql pos = none) :
    (List.range (tl.length + 1)).filter
      (fun p => decide (pos ≤ p) && ql.isPrefixOf (tl.drop p)) = [] :=
  List.head?_eq_none_iff.mp h

theorem findFrom_some (tl ql : List Char) (pos p : Nat) (h : findFrom tl ql pos = some p) :
    p ≤ tl.length ∧ pos ≤ p ∧ ql.isPrefixOf (tl.drop p) = true
      ∧ ∀ x, pos ≤ x → ql.isPrefixOf (tl.drop x) = true → x ≤ tl.length → p ≤ x := by
  unfold findFrom at h
  rcases hF : (List.range (tl.length + 1)).filter
      (fun p => decide (pos ≤ p) && ql.isPrefixOf (tl.drop p)) with _ | ⟨a, l⟩
  · rw [hF] at h
    exact absurd h (by simp)
  · rw [hF] at h
    have ha : a = p := by simpa using h
    subst ha
    have hpw : List.Pairwise (fun x y => x < y) (a :: l) := by
      rw [← hF]
      exact List.Pairwise.filter _ (List.pairwise_lt_range (tl.length + 1))
    have hmem : a ∈ (List.range (tl.length + 1)).filter
        (fun p => decide (pos ≤ p) && ql.isPrefixOf (tl.drop p)) := by
      rw [hF]
      exact List.mem_cons_self a l
    rcases List.mem_filter.mp hmem with ⟨hr, hpred⟩
    rw [List.mem_range] at hr
    rw [Bool.and_eq_true] at hpred
    rcases hpred with ⟨h1, h2⟩
    refine ⟨by omega, by simpa using h1, h2, ?_⟩
    intro x hx hPx hxle
    have hxmem : x ∈ (List.range (tl.length + 1)).filter
        (fun p => decide (pos ≤ p) && ql.isPrefixOf (tl.drop p)) := by
      rw [List.mem_filter, List.mem_range]
      exact ⟨by omega, by simp [hx, hPx]⟩
    rw [hF] at hxmem
    rcases List.mem_cons.mp hxmem with hxa | hxl
    · omega
    · have := (List.pairwise_cons.mp hpw).1 x hxl
      omega

/-- Splitting the ordered position filter at its least element. -/
theorem filter_range_eq_cons (P : Nat → Bool) (N pos p : Nat)
    (hp : p < N) (hpos : pos ≤ p) (hP : P p = true)
    (hmin : ∀ x, pos ≤ x → P x = true → p ≤ x) :
    (List.range N).filter (fun x => decide (pos ≤ x) && P x)
      = p :: (List.range N).filter (fun x => decide (p + 1 ≤ x) && P x) := by
  induction N with
  | zero => omega
  | succ n ih =>
    rw [List.range_succ, List.filter_append, List.filter_append]
    by_cases hpn : p < n
    · have hsing : List.filter (fun x => decide (pos ≤ x) && P x) [n]
          = List.filter (fun x => decide (p + 1 ≤ x) && P x) [n] := by
        cases hPn : P n with
        | false => simp [List.filter_cons, hPn]
        | true => simp [List.filter_cons, hPn, (by omega : pos ≤ n), (by omega : p + 1 ≤ n)]
      rw [ih hpn, hsing, List.cons_append]
    · have hpn' : p = n := by omega
      subst hpn'
      have e1 : (List.range p).filter (fun x => decide (pos ≤ x) && P x) = [] := by
        rw [List.filter_eq_nil_iff]
        intro a ha
        rw [List.mem_range] at ha
        simp only [Bool.and_eq_true, decide_eq_true_eq, not_and]
        intro h1 h2
        exact absurd (hmin a h1 h2) (by omega)
      have e2 : (List.range p).filter (fun x => decide (p + 1 ≤ x) && P x) = [] := by
        rw [List.filter_eq_nil_iff]
        intro a ha
        rw [List.mem_range] at ha
        simp only [Bool.and_eq_true, decide_eq_true_eq, not_and]
        intro h1 h2
        omega
      rw [e1, e2]
      simp [List.filter_cons, hP, hpos, (by omega : ¬ (p + 1 ≤ p))]

theorem searchLoop_map_position (t q : List Char) (ctx : Nat) (hq : q ≠ []) :
    ∀ fuel pos, t.length + 1 ≤ fuel + pos →
      ((searchLoop t q ctx fuel pos).1.map (fun m => m.position))
        = (List.range (t.length + 1)).filter
            (fun p => decide (pos ≤ p)
              && (q.map Char.toLower).isPrefixOf ((t.map Char.toLower).drop p)) := by
  intro fuel
  induction fuel with
  | zero =>
    intro pos hfc
    simp only [searchLoop, List.map_nil]
    symm
    rw [List.filter_eq_nil_iff]
    intro a ha
    rw [List.mem_range] at ha
    simp only [Bool.and_eq_true, decide_eq_true_eq, not_and]
    intro h1 _
    omega
  | succ f ih =>
    intro pos hfc
    simp only [searchLoop]
    cases hf : findFrom (t.map Char.toLower) (q.map Char.toLower) pos with
    | none =>
      simp only [List.map_nil]
      symm
      have hnil := findFrom_none _ _ _ hf
      simpa [List.length_map] using hnil
    | some p =>
      obtain ⟨hple, hpos, hP, hmin⟩ := findFrom_some _ _ _ _ hf
      rw [List.length_map] at hple
      have hmin' : ∀ x, pos ≤ x →
          (q.map Char.toLower).isPrefixOf ((t.map Char.toLower).drop x) = true → p ≤ x := by
        intro x h1 h2
        by_cases hxle : x ≤ t.length
        · exact hmin x h1 h2 (by rw [List.length_map]; exact hxle)
        · have hdrop : (t.map Char.toLower).drop x = [] := by
            apply List.drop_eq_nil_of_le
            rw [List.length_map]
            omega
          rw [hdrop] at h2
          obtain ⟨a, l, he⟩ := List.exists_cons_of_ne_nil
            (by simpa [List.map_eq_nil_iff] using hq : q.map Char.toLower ≠ [])
          rw [he] at h2
          simp at h2
      have hrec := ih (p + 1) (by omega)
      simp only [List.map_cons, mkMatch_position, hrec]
      exact (filter_range_eq_cons
        (fun x => (q.map Char.toLower).isPrefixOf ((t.map Char.toLower).drop x))
        (t.length + 1) pos p (by omega) hpos hP hmin').symm

/-- C4.  For a non-empty query the scan reports exactly the occurrence
    positions of the lowercased query in the lowercased text, in increasing
    order: resuming at one past each match start keeps every overlapping
    occurrence.  The count field equals the number of those positions. -/
theorem search_reports_all_occurrences (t q : List Char) (c : Nat) (hq : q ≠ []) :
    ((search_in_text t q c).«matches».map (fun m => m.position))
        = (List.range (t.length + 1)).filter
            (fun p => (q.map Char.toLower).isPrefixOf ((t.map Char.toLower).drop p))
      ∧ (search_in_text t q c).count
        = ((List.range (t.length + 1)).filter
            (fun p => (q.map Char.toLower).isPrefixOf ((t.map Char.toLower).drop p))).length := by
  have hmain := searchLoop_map_position t q c hq (t.length + 1) 0 (by omega)
  have hsimp : ((List.range (t.length + 1)).filter
        (fun p => decide (0 ≤ p)
          && (q.map Char.toLower).isPrefixOf ((t.map Char.toLower).drop p)))
      = (List.range (t.length + 1)).filter
          (fun p => (q.map Char.toLower).isPrefixOf ((t.map Char.toLower).drop p)) := by
    apply List.filter_congr
    intro a _
    simp
  constructor
  · exact hmain.trans hsimp
  · show (searchLoop t q c (t.length + 1) 0).2 = _
    rw [searchLoop_count]
    rw [← List.length_map ((searchLoop t q c (t.length + 1) 0).1) (fun m => m.position)]
    rw [hmain, hsimp]

theorem search_reports_all_occurrences_witness :
    "aa".toList ≠ [] ∧
      ((search_in_text "aaa".toList "aa".toList 150).«matches».map (fun m => m.position))
        = [0, 1] ∧
      (search_in_text "aaa".toList "aa".toList 150).count = 2 := by
  have h := search_reports_all_occurrences ("aaa".toList) ("aa".toList) 150 (by decide)
  exact ⟨by decide, h.1.trans (by decide), h.2.trans (by decide)⟩

/-! ## C2: duplicate sentence texts are collapsed by the score dict -/

theorem dictUpsert_keys_nodup (d : List (List Char × Frac)) (k : List Char) (v : Frac)
    (h : (d.map Prod.fst).Nodup) : ((dictUpsert d k v).map Prod.fst).Nodup := by
  unfold dictUpsert
  by_cases hc : d.any (fun p => p.1 == k)
  · rw [if_pos hc]
    have he : (d.map (fun p => if p.1 == k then (p.1, v) else p)).map Prod.fst
        = d.map Prod.fst := by
      rw [List.map_map]
      apply List.map_congr_left
      intro p _
      by_cases hk : p.1 = k
      · simp [hk]
      · simp [hk]
    rw [he]
    exact h
  · rw [if_neg hc]
    rw [List.map_append, List.nodup_append]
    refine ⟨h, List.nodup_singleton k, ?_⟩
    intro a ha hb
    simp at hb
    subst hb
    rcases List.mem_map.mp ha with ⟨p, hp, he⟩
    apply hc
    rw [List.any_eq_true]
    exact ⟨p, hp, by simp [he]⟩

theorem score_sentences_keys_nodup (sentences : List (List Char))
    (wf : List (List Char × Frac)) :
    ((score_sentences sentences wf).map Prod.fst).Nodup := by
  unfold score_sentences
  have key : ∀ (l : List (Nat × List Char)) (d : List (List Char × Frac)),
      (d.map Prod.fst).Nodup →
      ((l.foldl (fun d p =>
          dictUpsert d p.2 (scoreSentence sentences.length wf p.1 p.2)) d).map Prod.fst).Nodup := by
    intro l
    induction l with
    | nil => intro d hd; exact hd
    | cons x xs ih => intro d hd; exact ih _ (dictUpsert_keys_nodup d x.2 _ hd)
  exact key sentences.enum [] (by simp)

/-- C2, amended.  Because score_sentences keys its dict by the sentence text,
    repeated sentence texts are collapsed to a single scored entry (the later
    occurrence overwriting the score), so whenever the scoring path runs
    (strictly more sentences than requested) the selected-sentence sequence
    contains each distinct sentence text at most once. -/
theorem selected_sentences_nodup (t : List Char) (n : Nat)
    (h : n < (split_into_sentences t).length) :
    ((generate_summary t n).bullet_points).Nodup := by
  simp only [generate_summary]
  rw [if_neg (by omega)]
  show ((List.insertionSort _
      ((List.insertionSort _ (score_sentences (split_into_sentences t)
        (calculate_word_frequency t))).take n)).map Prod.fst).Nodup
  set d := score_sentences (split_into_sentences t) (calculate_word_frequency t) with hd
  have h0 : (d.map Prod.fst).Nodup := score_sentences_keys_nodup _ _
  have h1 : ((List.insertionSort (fun a b : List Char × Frac => fracLe b.2 a.2) d).map
      Prod.fst).Nodup :=
    (((List.perm_insertionSort (fun a b : List Char × Frac => fracLe b.2 a.2) d).map
      Prod.fst).symm).nodup h0
  have h2 : (((List.insertionSort (fun a b : List Char × Frac => fracLe b.2 a.2) d).take
      n).map Prod.fst).Nodup := by
    rw [List.map_take]
    exact (List.take_sublist n _).nodup h1
  exact (((List.perm_insertionSort _ _).map Prod.fst).symm).nodup h2

/-- C2, counterexample to the claim as stated: the text below splits into
    three sentences with the first and third identical; both occurrences of
    the repeated sentence outscore the middle sentence (so selecting
    occurrences independently would pick the repeated text twice for a
    two-sentence summary), yet the summary contains the repeated text only
    once, together with the lower-scoring middle sentence. -/
theorem duplicate_sentence_collapsed_cx :
    split_into_sentences
        ("apple apple apple apple banana. orange kiwi grape. apple apple apple apple banana.".toList)
      = ["apple apple apple apple banana.".toList, "orange kiwi grape.".toList,
         "apple apple apple apple banana.".toList]
    ∧ (generate_summary
        ("apple apple apple apple banana. orange kiwi grape. apple apple apple apple banana.".toList)
        2).bullet_points
      = ["apple apple apple apple banana.".toList, "orange kiwi grape.".toList]
    ∧ List.count ("apple apple apple apple banana.".toList)
        (generate_summary
          ("apple apple apple apple banana. orange kiwi grape. apple apple apple apple banana.".toList)
          2).bullet_points = 1
    ∧ fracLt
        (scoreSentence 3
          (calculate_word_frequency
            ("apple apple apple apple banana. orange kiwi grape. apple apple apple apple banana.".toList))
          1 ("orange kiwi grape.".toList))
        (scoreSentence 3
          (calculate_word_frequency
            ("apple apple apple apple banana. orange kiwi grape. apple apple apple apple banana.".toList))
          2 ("apple apple apple apple banana.".toList)) :=
  ⟨by decide, by decide, by decide, by decide⟩

theorem selected_sentences_nodup_witness :
    2 < (split_into_sentences
        ("apple apple apple apple banana. orange kiwi grape. apple apple apple apple banana.".toList)).length
    ∧ ((generate_summary
        ("apple apple apple apple banana. orange kiwi grape. apple apple apple apple banana.".toList)
        2).bullet_points).Nodup :=
  ⟨by decide,
    selected_sentences_nodup
      ("apple apple apple apple banana. orange kiwi grape. apple apple apple apple banana.".toList)
      2 (by decide)⟩

/-! ## C10: stripping the mark tags recovers the snippet -/

theorem prefix_split {p a b : List Char} (h : p <+: a ++ b) :
    p <+: a ∨ (a <+: p ∧ p.drop a.length <+: b) := by
  induction a generalizing p with
  | nil =>
    right
    exact ⟨ List.nil_prefix, by simpa using h⟩
  | cons c a ih =>
    cases p with
    | nil => left; exact List.nil_prefix
    | cons d p =>
      rw [List.cons_append, List.cons_prefix_cons] at h
      obtain ⟨rfl, h2⟩ := h
      rcases ih h2 with h3 | ⟨h3, h4⟩
      · left
        exact List.cons_prefix_cons.mpr ⟨rfl, h3⟩
      · right
        exact ⟨List.cons_prefix_cons.mpr ⟨rfl, h3⟩, by simpa using h4⟩

/-- A tag occurrence whose matched piece lies inside a suffix of x is an
    occurrence inside x. -/
theorem infix_of_suffix_piece {tag x₁ x₂ : List Char} (he : x₁ ++ x₂ = x)
    (h : tag <+: x₂) : tag <:+: x := by
  obtain ⟨r, hr⟩ := h
  exact ⟨x₁, r, by rw [← he, ← hr, List.append_assoc]⟩

theorem openDrop_not_prefix_open (z : List Char) :
    ∀ j, 0 < j → j < 6 → ¬ (markOpen.drop j) <+: (markOpen ++ z) := by
  intro j h1 h2
  interval_cases j <;> simp [markOpen, List.cons_prefix_cons]

theorem closeDrop_not_prefix_open (z : List Char) :
    ∀ j, 0 < j → j < 7 → ¬ (markClose.drop j) <+: (markOpen ++ z) := by
  intro j h1 h2
  interval_cases j <;> simp [markOpen, markClose, List.cons_prefix_cons]

theorem openDrop_not_prefix_close (z : List Char) :
    ∀ j, 0 < j → j < 6 → ¬ (markOpen.drop j) <+: (markClose ++ z) := by
  intro j h1 h2
  interval_cases j <;> simp [markOpen, markClose, List.cons_prefix_cons]

theorem closeDrop_not_prefix_close (z : List Char) :
    ∀ j, 0 < j → j < 7 → ¬ (markClose.drop j) <+: (markClose ++ z) := by
  intro j h1 h2
  interval_cases j <;> simp [markClose, List.cons_prefix_cons]

/-- A clean segment is passed through unchanged by the strip scanner when no
    tag occurrence starts inside it (possibly running on into z). -/
theorem stripTagsAux_append (x z : List Char)
    (hno : ∀ x₁ x₂, x = x₁ ++ x₂ → x₂ ≠ [] →
        ¬ markOpen <+: (x₂ ++ z) ∧ ¬ markClose <+: (x₂ ++ z)) :
    ∀ fuel, stripTagsAux fuel (x ++ z) = x ++ stripTagsAux (fuel - x.length) z := by
  induction x with
  | nil => intro fuel; simp
  | cons c x ih =>
    intro fuel
    cases fuel with
    | zero =>
      have hz : 0 - ((c :: x).length) = 0 := by omega
      rw [hz]
      rfl
    | succ f =>
      have hh := hno [] (c :: x) rfl (by simp)
      rw [List.cons_append]
      simp only [stripTagsAux]
      rw [if_neg (by rw [isPrefixOf_true]; simpa using hh.1),
        if_neg (by rw [isPrefixOf_true]; simpa using hh.2)]
      rw [ih (fun x₁ x₂ he hne => hno (c :: x₁) x₂ (by rw [he]; rfl) hne) f]
      have hf : f - x.length = f + 1 - (c :: x).length := by
        simp only [List.length_cons]
        omega
      rw [hf]
      rfl

theorem stripTagsAux_open (z : List Char) (fuel : Nat) :
    stripTagsAux (fuel + 1) (markOpen ++ z) = stripTagsAux fuel z := by
  show stripTagsAux (fuel + 1) ('<' :: 'm' :: 'a' :: 'r' :: 'k' :: '>' :: z)
      = stripTagsAux fuel z
  simp only [stripTagsAux]
  rw [if_pos (by simp [markOpen, List.isPrefixOf])]
  rfl

theorem stripTagsAux_close (z : List Char) (fuel : Nat) :
    stripTagsAux (fuel + 1) (markClose ++ z) = stripTagsAux fuel z := by
  show stripTagsAux (fuel + 1) ('<' :: '/' :: 'm' :: 'a' :: 'r' :: 'k' :: '>' :: z)
      = stripTagsAux fuel z
  simp only [stripTagsAux]
  rw [if_neg (by simp [markOpen, List.isPrefixOf]),
    if_pos (by simp [markClose, List.isPrefixOf])]
  rfl

/-- No tag occurrence starts inside a tag-free segment that is followed by an
    opening tag. -/
theorem no_tag_start_before_open (x z : List Char)
    (hO : ¬ markOpen <:+: x) (hC : ¬ markClose <:+: x) :
    ∀ x₁ x₂, x = x₁ ++ x₂ → x₂ ≠ [] →
      ¬ markOpen <+: (x₂ ++ (markOpen ++ z)) ∧ ¬ markClose <+: (x₂ ++ (markOpen ++ z)) := by
  intro x₁ x₂ he hne
  constructor
  · intro hpre
    rcases prefix_split hpre with h | ⟨h1, h2⟩
    · exact hO (infix_of_suffix_piece he.symm h)
    · have hlen : x₂.length ≤ 6 := by
        have := h1.length_le
        simpa [markOpen] using this
      by_cases h6 : x₂.length = 6
      · have : x₂ = markOpen := h1.eq_of_length (by simp [markOpen, h6])
        exact hO (infix_of_suffix_piece he.symm (this ▸ List.prefix_refl x₂))
      · have hpos : 0 < x₂.length := List.length_pos.mpr hne
        exact openDrop_not_prefix_open z x₂.length hpos (by omega) h2
  · intro hpre
    rcases prefix_split hpre with h | ⟨h1, h2⟩
    · exact hC (infix_of_suffix_piece he.symm h)
    · have hlen : x₂.length ≤ 7 := by
        have := h1.length_le
        simpa [markClose] using this
      by_cases h7 : x₂.length = 7
      · have : x₂ = markClose := h1.eq_of_length (by simp [markClose, h7])
        exact hC (infix_of_suffix_piece he.symm (this ▸ List.prefix_refl x₂))
      · have hpos : 0 < x₂.length := List.length_pos.mpr hne
        exact closeDrop_not_prefix_open z x₂.length hpos (by omega) h2

/-- No tag occurrence starts inside a tag-free segment that is followed by a
    closing tag. -/
theorem no_tag_start_before_close (x z : List Char)
    (hO : ¬ markOpen <:+: x) (hC : ¬ markClose <:+: x) :
    ∀ x₁ x₂, x = x₁ ++ x₂ → x₂ ≠ [] →
      ¬ markOpen <+: (x₂ ++ (markClose ++ z)) ∧ ¬ markClose <+: (x₂ ++ (markClose ++ z)) := by
  intro x₁ x₂ he hne
  constructor
  · intro hpre
    rcases prefix_split hpre with h | ⟨h1, h2⟩
    · exact hO (infix_of_suffix_piece he.symm h)
    · have hlen : x₂.length ≤ 6 := by
        have := h1.length_le
        simpa [markOpen] using this
      by_cases h6 : x₂.length = 6
      · have : x₂ = markOpen := h1.eq_of_length (by simp [markOpen, h6])
        exact hO (infix_of_suffix_piece he.symm (this ▸ List.prefix_refl x₂))
      · have hpos : 0 < x₂.length := List.length_pos.mpr hne
        exact openDrop_not_prefix_close z x₂.length hpos (by omega) h2
  · intro hpre
    rcases prefix_split hpre with h | ⟨h1, h2⟩
    · exact hC (infix_of_suffix_piece he.symm h)
    · have hlen : x₂.length ≤ 7 := by
        have := h1.length_le
        simpa [markClose] using this
      by_cases h7 : x₂.length = 7
      · have : x₂ = markClose := h1.eq_of_length (by simp [markClose, h7])
        exact hC (infix_of_suffix_piece he.symm (this ▸ List.prefix_refl x₂))
      · have hpos : 0 < x₂.length := List.length_pos.mpr hne
        exact closeDrop_not_prefix_close z x₂.length hpos (by omega) h2

theorem stripTagsAux_nil : ∀ f, stripTagsAux f ([] : List Char) = [] := by
  intro f
  cases f <;> rfl

/-- Stripping the scanner output of a non-empty query over tag-free text,
    after a pending tag-free plain prefix w, recovers w followed by the
    text. -/
theorem strip_highlight (q : List Char) (hq : q ≠ []) :
    ∀ hfuel s w sfuel, s.length < hfuel
      → ¬ markOpen <:+: (w ++ s) → ¬ markClose <:+: (w ++ s)
      → w.length + (highlightAux q hfuel s).length ≤ sfuel
      → stripTagsAux sfuel (w ++ highlightAux q hfuel s) = w ++ s := by
  intro hfuel
  induction hfuel with
  | zero =>
    intro s w sfuel h hO hC hsf
    omega
  | succ hf ih =>
    intro s w sfuel hlen hO hC hsf
    have hqe : q.isEmpty = false := by
      cases q with
      | nil => exact absurd rfl hq
      | cons a l => rfl
    have hqlen : 1 ≤ q.length := by
      cases q with
      | nil => exact absurd rfl hq
      | cons a l => simp
    cases s with
    | nil =>
      rw [List.append_nil] at hO hC
      have hout : highlightAux q (hf + 1) ([] : List Char) = [] := by
        simp [highlightAux, hqe]
      rw [hout]
      have hno : ∀ x₁ x₂, w = x₁ ++ x₂ → x₂ ≠ [] →
          ¬ markOpen <+: (x₂ ++ ([] : List Char)) ∧ ¬ markClose <+: (x₂ ++ []) := by
        intro x₁ x₂ he hne
        constructor
        · intro hpre
          exact hO (infix_of_suffix_piece he.symm (by simpa using hpre))
        · intro hpre
          exact hC (infix_of_suffix_piece he.symm (by simpa using hpre))
      rw [stripTagsAux_append w [] hno sfuel, stripTagsAux_nil]
    | cons c s' =>
      by_cases hmatch : matchesAt q (c :: s')
      · have hout : highlightAux q (hf + 1) (c :: s')
            = markOpen ++ ((c :: s').take q.length
                ++ (markClose ++ highlightAux q hf ((c :: s').drop q.length))) := by
          simp [highlightAux, hqe, hmatch]
        have hcs : (c :: s') <:+ (w ++ (c :: s')) := ⟨w, rfl⟩
        have hOcs : ¬ markOpen <:+: (c :: s') :=
          fun h => hO (h.trans (List.IsSuffix.isInfix hcs))
        have hCcs : ¬ markClose <:+: (c :: s') :=
          fun h => hC (h.trans (List.IsSuffix.isInfix hcs))
        have hmpre : ((c :: s').take q.length) <+: (c :: s') :=
          ⟨(c :: s').drop q.length, List.take_append_drop q.length (c :: s')⟩
        have hOm : ¬ markOpen <:+: ((c :: s').take q.length) :=
          fun h => hOcs (h.trans (List.IsPrefix.isInfix hmpre))
        have hCm : ¬ markClose <:+: ((c :: s').take q.length) :=
          fun h => hCcs (h.trans (List.IsPrefix.isInfix hmpre))
        have hs2suf : ((c :: s').drop q.length) <:+ (c :: s') :=
          List.drop_suffix q.length (c :: s')
        have hOs2 : ¬ markOpen <:+: ((c :: s').drop q.length) :=
          fun h => hOcs (h.trans (List.IsSuffix.isInfix hs2suf))
        have hCs2 : ¬ markClose <:+: ((c :: s').drop q.length) :=
          fun h => hCcs (h.trans (List.IsSuffix.isInfix hs2suf))
        have hOw : ¬ markOpen <:+: w :=
          fun h => hO (h.trans (List.IsPrefix.isInfix ⟨c :: s', rfl⟩))
        have hCw : ¬ markClose <:+: w :=
          fun h => hC (h.trans (List.IsPrefix.isInfix ⟨c :: s', rfl⟩))
        rw [hout] at hsf
        have hlens : (markOpen ++ ((c :: s').take q.length
            ++ (markClose ++ highlightAux q hf ((c :: s').drop q.length)))).length
            = 6 + (((c :: s').take q.length).length
                + (7 + (highlightAux q hf ((c :: s').drop q.length)).length)) := by
          simp [markOpen, markClose]
          omega
        rw [hlens] at hsf
        rw [hout]
        rw [stripTagsAux_append w
          (markOpen ++ ((c :: s').take q.length
            ++ (markClose ++ highlightAux q hf ((c :: s').drop q.length))))
          (no_tag_start_before_open w
            ((c :: s').take q.length
              ++ (markClose ++ highlightAux q hf ((c :: s').drop q.length))) hOw hCw) sfuel]
        have hg1 : sfuel - w.length = (sfuel - w.length - 1) + 1 := by omega
        rw [hg1, stripTagsAux_open]
        rw [stripTagsAux_append ((c :: s').take q.length)
          (markClose ++ highlightAux q hf ((c :: s').drop q.length))
          (no_tag_start_before_close ((c :: s').take q.length)
            (highlightAux q hf ((c :: s').drop q.length)) hOm hCm)
          (sfuel - w.length - 1)]
        have hg2 : sfuel - w.length - 1 - ((c :: s').take q.length).length
            = (sfuel - w.length - 1 - ((c :: s').take q.length).length - 1) + 1 := by omega
        rw [hg2, stripTagsAux_close]
        have hlen2 : ((c :: s').drop q.length).length < hf := by
          rw [List.length_drop]
          have h1 : (c :: s').length < hf + 1 := hlen
          have h2 : 1 ≤ (c :: s').length := by simp
          omega
        have hrec := ih ((c :: s').drop q.length) []
          (sfuel - w.length - 1 - ((c :: s').take q.length).length - 1)
          hlen2 (by simpa using hOs2) (by simpa using hCs2)
          (by simp only [List.length_nil, Nat.zero_add]; omega)
        rw [List.nil_append] at hrec
        rw [hrec]
        simp [List.take_append_drop]
      · have hout : highlightAux q (hf + 1) (c :: s') = c :: highlightAux q hf s' := by
          simp [highlightAux, hqe, hmatch]
        rw [hout]
        have hassoc : w ++ c :: highlightAux q hf s' = (w ++ [c]) ++ highlightAux q hf s' := by
          simp
        rw [hassoc]
        have hO2 : ¬ markOpen <:+: ((w ++ [c]) ++ s') := by
          simpa using hO
        have hC2 : ¬ markClose <:+: ((w ++ [c]) ++ s') := by
          simpa using hC
        have hsf2 : (w ++ [c]).length + (highlightAux q hf s').length ≤ sfuel := by
          rw [hout] at hsf
          simp only [List.length_append, List.length_cons, List.length_nil] at hsf ⊢
          omega
        have hlen2 : s'.length < hf := by
          have h1 : (c :: s').length < hf + 1 := hlen
          simp only [List.length_cons] at h1
          omega
        rw [ih s' (w ++ [c]) sfuel hlen2 hO2 hC2 hsf2]
        simp

/-- C10.  For every snippet and non-empty query such that neither contains
    the literal mark tags, deleting every occurrence of the opening and the
    closing tag from the highlighted output recovers exactly the original
    snippet: highlighting only inserts tags and never alters, removes or
    reorders the snippet characters. -/
theorem highlight_strip_roundtrip (s q : List Char) (hq : q ≠ [])
    (hsO : ¬ markOpen <:+: s) (hsC : ¬ markClose <:+: s)
    (hqO : ¬ markOpen <:+: q) (hqC : ¬ markClose <:+: q) :
    stripTags (highlight_text s q) = s := by
  unfold stripTags highlight_text
  have h := strip_highlight q hq (s.length + 1) s []
    ((highlightAux q (s.length + 1) s).length) (by omega)
    (by simpa using hsO) (by simpa using hsC) (by simp)
  simpa using h

theorem highlight_strip_roundtrip_witness :
    ("ab".toList ≠ [] ∧ ¬ markOpen <:+: "xaBy".toList ∧ ¬ markClose <:+: "xaBy".toList
        ∧ ¬ markOpen <:+: "ab".toList ∧ ¬ markClose <:+: "ab".toList)
      ∧ stripTags (highlight_text ("xaBy".toList) ("ab".toList)) = "xaBy".toList :=
  ⟨⟨by decide, by decide, by decide, by decide, by decide⟩,
    highlight_strip_roundtrip ("xaBy".toList) ("ab".toList) (by decide) (by decide) (by decide)
      (by decide) (by decide)⟩

end NotesCore
